import Mathlib

/-!
Shallow embedding of the AltEnglish transliteration tool
(`src/altenglish.py`): stress normalization, the two phoneme symbol
tables, the two phoneme mappers, the two tokenizers, sentence
reconstruction, sentence-mode word processing, and the eSpeak
phoneme-string builder used for audio.

Python strings are modelled as `List Char`; Python `re` patterns used by
the program are small enough to be compiled by hand into explicit
scanners with the exact semantics of `re.findall` / `fullmatch` on those
patterns (leftmost scan, alternatives in order, greedy quantifiers,
skipping one character when no alternative matches).
-/

namespace AltEnglish

/-- A Python string, modelled as its list of characters. -/
abbrev Str := List Char

/-- Character list of a Lean string literal. -/
def chars (s : String) : Str := s.data

/-- `[012]` — the stress digits recognised by `_STRESS_DIGITS`. -/
def isStress (c : Char) : Bool := c = '0' || c = '1' || c = '2'

/-- Whether the last character of a phone string is a stress digit. -/
def endsStress (s : Str) : Bool :=
  match s.getLast? with
  | some c => isStress c
  | none => false

/-- Whether the last character of a string is a newline. -/
def endsNl (s : Str) : Bool := s.getLast? = some '\n'

/-- `strip_stress`: `_STRESS_DIGITS.sub("", phone)` with pattern `[012]$`.
Python's `$` (without `re.MULTILINE`) matches at the end of the string
and also just before a newline that is the last character, so the
pattern matches a stress digit that is the final character, or one that
is immediately followed by a single trailing newline.  The two match
positions are mutually exclusive and each consumes one character, so
`re.sub` removes at most one digit per call. -/
def strip_stress (s : Str) : Str :=
  if endsStress s then s.dropLast
  else if endsNl s && endsStress s.dropLast then
    s.dropLast.dropLast ++ ['\n']
  else s

/-- Whether the pattern `[012]$` matches somewhere in `s` (equivalently,
whether `strip_stress` changes `s`). -/
def endsStressRe (s : Str) : Bool :=
  endsStress s || (endsNl s && endsStress s.dropLast)

/-- Whether removing the matched stress digit exposes a further match:
the string ends in two stress digits, in a stress digit then a newline
then a stress digit, or in two stress digits then a newline. -/
def doubleStressEnd (s : Str) : Bool :=
  (endsStress s && endsStress s.dropLast) ||
  (endsStress s && endsNl s.dropLast && endsStress s.dropLast.dropLast) ||
  (endsNl s && endsStress s.dropLast && endsStress s.dropLast.dropLast)

/-- Association-list lookup with string keys, as Python `dict` membership
and indexing over the fixed tables. -/
def lookupStr : List (Str × Str) → Str → Option Str
  | [], _ => none
  | (k, v) :: rest, key => if key = k then some v else lookupStr rest key

/-- The `ENGINEERED` consonant table of `altenglish.py`. -/
def ENGINEERED : List (Str × Str) := [
  ("P".data, "□".data), ("B".data, "□·".data), ("M".data, "□°".data),
  ("W".data, "□>".data),
  ("T".data, "⊣".data), ("D".data, "⊣·".data), ("S".data, "⊣~".data),
  ("Z".data, "⊣~·".data), ("N".data, "⊣°".data), ("L".data, "⊣>".data),
  ("R".data, "⊣>>".data),
  ("K".data, "⌂".data), ("G".data, "⌂·".data), ("NG".data, "⌂°".data),
  ("TH".data, "∆~".data), ("DH".data, "∆~·".data),
  ("SH".data, "Ω~".data), ("ZH".data, "Ω~·".data), ("CH".data, "Ω+".data),
  ("JH".data, "Ω+·".data),
  ("HH".data, "○~".data),
  ("F".data, "⌁~".data), ("V".data, "⌁~·".data)]

/-- The `VOWELS` table of `altenglish.py`. -/
def VOWELS : List (Str × Str) := [
  ("IY".data, "▲".data), ("IH".data, "▲|".data), ("EY".data, "▶".data),
  ("EH".data, "▶|".data), ("AE".data, "▼".data), ("AH".data, "▼|".data),
  ("AX".data, "▶||".data), ("OW".data, "▶—".data), ("UW".data, "▲—".data),
  ("AA".data, "▼—".data), ("AO".data, "▼—".data), ("UH".data, "▲—".data),
  ("ER".data, "▶||⊣>>".data),
  ("AY".data, "▼▲".data), ("AW".data, "▼▲—".data), ("OY".data, "▶—▲|".data)]

/-- The `ESPEAK_PH` table of `altenglish.py`. -/
def ESPEAK_PH : List (Str × Str) := [
  ("P".data, "p".data), ("B".data, "b".data), ("M".data, "m".data),
  ("W".data, "w".data),
  ("T".data, "t".data), ("D".data, "d".data), ("S".data, "s".data),
  ("Z".data, "z".data), ("N".data, "n".data), ("L".data, "l".data),
  ("R".data, "r".data),
  ("K".data, "k".data), ("G".data, "g".data), ("NG".data, "N".data),
  ("TH".data, "T".data), ("DH".data, "D".data),
  ("SH".data, "S".data), ("ZH".data, "Z".data),
  ("CH".data, "tS".data), ("JH".data, "dZ".data),
  ("HH".data, "h".data),
  ("F".data, "f".data), ("V".data, "v".data),
  ("IY".data, "i:".data), ("IH".data, "I".data), ("EY".data, "eI".data),
  ("EH".data, "E".data), ("AE".data, "a".data), ("AH".data, "V".data),
  ("AX".data, "@".data), ("OW".data, "oU".data), ("UW".data, "u:".data),
  ("AA".data, "A:".data), ("AO".data, "O:".data), ("UH".data, "U".data),
  ("ER".data, "3:".data),
  ("AY".data, "aI".data), ("AW".data, "aU".data), ("OY".data, "OI".data)]

/-- The visible marker `f"<?>({base})"` appended for an unmapped phone. -/
def placeholderPh (b : Str) : Str := chars "<?>(" ++ b ++ chars ")"

/-- The single output unit the engineered mapper produces for one phone:
consonant table first, then vowel table, else the visible placeholder. -/
def engineered_unit (ph : Str) : Str :=
  let base := strip_stress ph
  match lookupStr ENGINEERED base with
  | some v => v
  | none =>
    match lookupStr VOWELS base with
    | some v => v
    | none => placeholderPh base

/-- The loop body of `arpabet_to_engineered_symbols`: the `out` list and
the `missing` list it accumulates, in emission order. -/
def arpabet_to_engineered_out : List Str → List Str × List Str
  | [] => ([], [])
  | ph :: rest =>
    let base := strip_stress ph
    let r := arpabet_to_engineered_out rest
    match lookupStr ENGINEERED base with
    | some v => (v :: r.1, r.2)
    | none =>
      match lookupStr VOWELS base with
      | some v => (v :: r.1, r.2)
      | none => (placeholderPh base :: r.1, base :: r.2)

/-- `" ".join(parts)`. -/
def joinSpaces (parts : List Str) : Str := List.intercalate (chars " ") parts

/-- `arpabet_to_engineered_symbols`: space-joined engineered symbols plus
the list of unmapped (stress-stripped) phones. -/
def arpabet_to_engineered_symbols (phones : List Str) : Str × List Str :=
  (joinSpaces (arpabet_to_engineered_out phones).1,
    (arpabet_to_engineered_out phones).2)

/-- The loop shared by `arpabet_to_espeak_phonemes` and
`arpabet_to_espeak_parts`: on a hit the eSpeak token is appended to
`parts`; on a miss only `missing` grows (no placeholder). -/
def espeak_scan : List Str → List Str × List Str
  | [] => ([], [])
  | ph :: rest =>
    let base := strip_stress ph
    let r := espeak_scan rest
    match lookupStr ESPEAK_PH base with
    | some v => (v :: r.1, r.2)
    | none => (r.1, base :: r.2)

/-- `arpabet_to_espeak_parts`. -/
def arpabet_to_espeak_parts (phones : List Str) : List Str × List Str :=
  espeak_scan phones

/-- `arpabet_to_espeak_phonemes`: the eSpeak phoneme string
`"[[" + " ".join(parts) + "]]"` plus the unmapped list. -/
def arpabet_to_espeak_phonemes (phones : List Str) : Str × List Str :=
  (chars "[[" ++ joinSpaces (espeak_scan phones).1 ++ chars "]]",
    (espeak_scan phones).2)

/-- One step of the word alternative `[A-Za-z]+(?:'[A-Za-z]+)?` matched at
the head of `s` (assuming the head is a letter): the matched word token
and the remaining suffix.  The leading letter run is maximal; the
optional group matches iff an apostrophe followed by at least one letter
comes next, and then takes a maximal letter run. -/
def word_split (s : Str) : Str × Str :=
  let as := List.takeWhile Char.isAlpha s
  let r := List.dropWhile Char.isAlpha s
  if r.head? = some '\'' then
    let bs := List.takeWhile Char.isAlpha r.tail
    if bs.isEmpty then (as, r)
    else (as ++ '\'' :: bs, List.dropWhile Char.isAlpha r.tail)
  else (as, r)

lemma word_split_rest_le (s : Str) :
    (word_split s).2.length ≤ (List.dropWhile Char.isAlpha s).length := by
  simp only [word_split]
  split
  · split
    · exact le_refl _
    · refine le_trans (List.dropWhile_suffix _).length_le ?_
      rw [List.length_tail]
      omega
  · exact le_refl _

lemma word_split_rest_lt (c : Char) (cs : Str) (h : c.isAlpha = true) :
    (word_split (c :: cs)).2.length < (c :: cs).length := by
  have h1 := word_split_rest_le (c :: cs)
  rw [List.dropWhile_cons_of_pos h] at h1
  have h2 := (List.dropWhile_suffix (l := cs) Char.isAlpha).length_le
  simp only [List.length_cons]
  omega

/-- `tokenize_words`: `re.findall(r"[A-Za-z]+(?:'[A-Za-z]+)?", text)` —
scan left to right; at a letter, emit the word match; otherwise skip one
character. -/
def tokenize_words : Str → List Str
  | [] => []
  | c :: cs =>
    if h : c.isAlpha then
      (word_split (c :: cs)).1 :: tokenize_words (word_split (c :: cs)).2
    else tokenize_words cs
termination_by s => s.length
decreasing_by
  · exact word_split_rest_lt c cs h
  · simp

/-- `tokenize_with_punctuation`:
`re.findall(r"[A-Za-z]+(?:'[A-Za-z]+)?|\\s+|[^A-Za-z\\s]", text)`.
The pattern is a *raw* string, so `\\s` is regex for a literal
backslash followed by the letter `s` (not whitespace), and the final
class matches any single character that is neither a letter nor a
backslash.  A backslash not followed by `s` matches no alternative and
is skipped by `findall`. -/
def tokenize_with_punctuation : Str → List Str
  | [] => []
  | c :: cs =>
    if h : c.isAlpha then
      (word_split (c :: cs)).1
        :: tokenize_with_punctuation (word_split (c :: cs)).2
    else if c = '\\' then
      if cs.head? = some 's' then
        ('\\' :: List.takeWhile (fun d => d = 's') cs)
          :: tokenize_with_punctuation (List.dropWhile (fun d => d = 's') cs)
      else tokenize_with_punctuation cs
    else [c] :: tokenize_with_punctuation cs
termination_by s => s.length
decreasing_by
  · exact word_split_rest_lt c cs h
  · have := (List.dropWhile_suffix (l := cs) (fun d => d = 's')).length_le
    simp only [List.length_cons]
    omega
  · simp
  · simp

/-- `word_pattern.fullmatch(token)` for `[A-Za-z]+(?:'[A-Za-z]+)?`:
a nonempty letter run, optionally followed by an apostrophe and another
nonempty letter run, covering the whole token. -/
def word_fullmatch (t : Str) : Bool :=
  let as := List.takeWhile Char.isAlpha t
  let r := List.dropWhile Char.isAlpha t
  !as.isEmpty &&
    (match r with
     | [] => true
     | '\'' :: r2 => !r2.isEmpty && r2.all Char.isAlpha
     | _ => false)

/-- The characters for which Python's `str.isspace` (and hence the
no-argument `str.strip`) returns true: U+0009–U+000D, U+001C–U+001F,
space, NEL, NBSP, Ogham space mark, U+2000–U+200A, line and paragraph
separators, narrow no-break space, medium mathematical space, and
ideographic space. -/
def pyWhitespaceChars : List Char :=
  ['\t', '\n', '\x0b', '\x0c', '\x0d', '\x1c', '\x1d', '\x1e',
   '\x1f', ' ', '\x85', '\xa0', '\u1680', '\u2000', '\u2001',
   '\u2002', '\u2003', '\u2004', '\u2005', '\u2006', '\u2007',
   '\u2008', '\u2009', '\u200a', '\u2028', '\u2029', '\u202f',
   '\u205f', '\u3000']

/-- Whether `str.isspace` accepts the character. -/
def isPyWhitespace (c : Char) : Bool := decide (c ∈ pyWhitespaceChars)

/-- Python `token.isspace()`: nonempty and all whitespace. -/
def pyIsSpace (t : Str) : Bool := !t.isEmpty && t.all isPyWhitespace

/-- Python `s.strip()`: remove leading and trailing whitespace. -/
def pyStrip (s : Str) : Str :=
  ((s.dropWhile isPyWhitespace).reverse.dropWhile isPyWhitespace).reverse

/-- The per-token replacement of the sentence-reconstruction loop in
`main` (sentence mode): a full word-pattern match is replaced by
`word_symbols_map.get(token, f"<?>({token})")`; a whitespace token
passes through; any other token passes through when punctuation is
preserved and becomes a single space otherwise. -/
def render_token (wmap : Str → Option Str) (preserve : Bool) (t : Str) :
    Str :=
  if word_fullmatch t then (wmap t).getD (placeholderPh t)
  else if pyIsSpace t then t
  else if preserve then t else chars " "

/-- `print("".join(sentence_symbols).strip())`: the reconstructed
sentence is the concatenation of the per-token replacements, stripped. -/
def render_sentence (wmap : Str → Option Str) (preserve : Bool)
    (tokens : List Str) : Str :=
  pyStrip (List.flatten (tokens.map (render_token wmap preserve)))

/-- Python `s.split()` (no separator): split on whitespace runs,
discarding empty pieces.  Used for `phones[0].split()`. -/
def pySplitWS : Str → List Str
  | [] => []
  | c :: cs =>
    if isPyWhitespace c then pySplitWS cs
    else
      (c :: List.takeWhile (fun d => !isPyWhitespace d) cs)
        :: pySplitWS (List.dropWhile (fun d => !isPyWhitespace d) cs)
termination_by s => s.length
decreasing_by
  · simp
  · have h2 : (List.dropWhile (fun d => !isPyWhitespace d) cs).length ≤
        cs.length := (List.dropWhile_suffix _).length_le
    simp only [List.length_cons]
    omega

/-- Python `str.lower()` on the ASCII word tokens this program feeds it. -/
def pyLower (s : Str) : Str := s.map Char.toLower

/-- `word_to_arpabet`, parameterised by the external
`pronouncing.phones_for_word` collaborator (word → list of pronunciation
strings): lowercase and strip the word, return `none` when the lookup
yields no pronunciation, else the first pronunciation split on
whitespace. -/
def word_to_arpabet (pdict : Str → List Str) (w : Str) :
    Option (List Str) :=
  match pdict (pyStrip (pyLower w)) with
  | [] => none
  | p :: _ => some (pySplitWS p)

/-- One `word_entries` element of sentence mode:
`(word, phones | None, engineered | None, missing)`. -/
abbrev Entry := Str × Option (List Str) × Option Str × List Str

/-- The entry sentence mode records for one word. -/
def process_word (pdict : Str → List Str) (w : Str) : Entry :=
  match word_to_arpabet pdict w with
  | none => (w, none, none, [])
  | some phones =>
    (w, some phones, some (arpabet_to_engineered_symbols phones).1,
      (arpabet_to_engineered_symbols phones).2)

/-- The sentence-mode word loop of `main`: builds `word_entries`,
`missing_words` and `any_unmapped` in input order. -/
def sentence_scan (pdict : Str → List Str) : List Str →
    List Entry × List Str × List Str
  | [] => ([], [], [])
  | w :: ws =>
    let rest := sentence_scan pdict ws
    match word_to_arpabet pdict w with
    | none => ((w, none, none, []) :: rest.1, w :: rest.2.1, rest.2.2)
    | some phones =>
      let em := arpabet_to_engineered_symbols phones
      ((w, some phones, some em.1, em.2) :: rest.1, rest.2.1,
        if em.2.isEmpty then rest.2.2 else em.2 ++ rest.2.2)

/-- The `parts`/`missing` loop of `make_audio_files`: before each group a
comma token is appended when pauses are requested and `parts` is already
nonempty; a group's mapped eSpeak tokens are appended when there are
any; its unmapped phones always extend `missing`. -/
def audio_loop (pause : Bool) :
    List Str → List Str → List (List Str) → List Str × List Str
  | acc, accMiss, [] => (acc, accMiss)
  | acc, accMiss, g :: gs =>
    let acc1 := if pause && !acc.isEmpty then acc ++ [chars ","] else acc
    let gp := (espeak_scan g).1
    let acc2 := if gp.isEmpty then acc1 else acc1 ++ gp
    audio_loop pause acc2 (accMiss ++ (espeak_scan g).2) gs

/-- The eSpeak token list `make_audio_files` accumulates for `new.wav`. -/
def make_phon_parts (pause : Bool) (groups : List (List Str)) : List Str :=
  (audio_loop pause [] [] groups).1

/-- The phoneme string `make_audio_files` passes to eSpeak: `none` when
no phonemes are available (the function returns early with a warning),
else `"[[" + " ".join(parts) + "]]"`. -/
def make_phon_str (pause : Bool) (groups : List (List Str)) : Option Str :=
  let parts := make_phon_parts pause groups
  if parts.isEmpty then none
  else some (chars "[[" ++ joinSpaces parts ++ chars "]]")

/-! ### Helper lemmas -/

lemma strip_stress_fixed (s : Str) (h : endsStressRe s = false) :
    strip_stress s = s := by
  simp only [endsStressRe, Bool.or_eq_false_iff] at h
  obtain ⟨h1, h2⟩ := h
  unfold strip_stress
  rw [if_neg (by simp [h1]), if_neg (by simp [h2])]

lemma strip_stress_of_endsStress (s : Str) (h : endsStress s = true) :
    strip_stress s = s.dropLast := by
  unfold strip_stress
  rw [if_pos h]

lemma strip_stress_of_nl (s : Str) (h1 : endsStress s = false)
    (h2 : endsNl s = true) (h3 : endsStress s.dropLast = true) :
    strip_stress s = s.dropLast.dropLast ++ ['\n'] := by
  unfold strip_stress
  rw [if_neg (by simp [h1]), if_pos (by simp [h2, h3])]

lemma endsStress_concat_nl (z : Str) :
    endsStress (z ++ ['\n']) = false := by
  simp [endsStress, List.getLast?_concat, isStress]

lemma endsNl_concat_nl (z : Str) : endsNl (z ++ ['\n']) = true := by
  simp [endsNl, List.getLast?_concat]

lemma eng_out_eq_map (phones : List Str) :
    (arpabet_to_engineered_out phones).1 = phones.map engineered_unit := by
  induction phones with
  | nil => rfl
  | cons ph rest ih =>
    rcases h1 : lookupStr ENGINEERED (strip_stress ph) with _ | v
    · rcases h2 : lookupStr VOWELS (strip_stress ph) with _ | v
      · simp [arpabet_to_engineered_out, engineered_unit, h1, h2, ih]
      · simp [arpabet_to_engineered_out, engineered_unit, h1, h2, ih]
    · simp [arpabet_to_engineered_out, engineered_unit, h1, ih]

lemma espeak_scan_length (phones : List Str) :
    (espeak_scan phones).1.length + (espeak_scan phones).2.length =
      phones.length := by
  induction phones with
  | nil => rfl
  | cons ph rest ih =>
    rcases h1 : lookupStr ESPEAK_PH (strip_stress ph) with _ | v <;>
      simp [espeak_scan, h1] <;> omega

lemma eng_missing_mem (phones : List Str) (m : Str)
    (hm : m ∈ (arpabet_to_engineered_out phones).2) :
    ∃ ph ∈ phones, m = strip_stress ph := by
  induction phones with
  | nil => simp [arpabet_to_engineered_out] at hm
  | cons ph rest ih =>
    rcases h1 : lookupStr ENGINEERED (strip_stress ph) with _ | v
    · rcases h2 : lookupStr VOWELS (strip_stress ph) with _ | v
      · rw [show (arpabet_to_engineered_out (ph :: rest)).2 =
            strip_stress ph :: (arpabet_to_engineered_out rest).2 by
          simp [arpabet_to_engineered_out, h1, h2]] at hm
        rcases List.mem_cons.mp hm with h | h
        · exact ⟨ph, List.mem_cons_self ph rest, h⟩
        · obtain ⟨q, hq, he⟩ := ih h
          exact ⟨q, List.mem_cons_of_mem _ hq, he⟩
      · rw [show (arpabet_to_engineered_out (ph :: rest)).2 =
            (arpabet_to_engineered_out rest).2 by
          simp [arpabet_to_engineered_out, h1, h2]] at hm
        obtain ⟨q, hq, he⟩ := ih hm
        exact ⟨q, List.mem_cons_of_mem _ hq, he⟩
    · rw [show (arpabet_to_engineered_out (ph :: rest)).2 =
          (arpabet_to_engineered_out rest).2 by
        simp [arpabet_to_engineered_out, h1]] at hm
      obtain ⟨q, hq, he⟩ := ih hm
      exact ⟨q, List.mem_cons_of_mem _ hq, he⟩

/-! ### Claims -/

/-- Claim C4, counterexample: `strip_stress` violates both halves of the
claim on the code as written.  On `"AH00"` one application yields
`"AH0"` and a second yields `"AH"`, so applying twice differs from
applying once; and `"AH0\n"` ends in a newline — not in a stress digit —
yet is changed to `"AH\n"`, because the anchored `$` of `[012]$` also
matches just before a trailing newline. -/
theorem strip_stress_twice_ne_once :
    strip_stress (strip_stress (chars "AH00")) ≠
      strip_stress (chars "AH00") ∧
    strip_stress (chars "AH0\n") ≠ chars "AH0\n" := by decide

/-- Claim C4 (amended): `strip_stress` returns unchanged every phone
string in which the anchored stress pattern has no match — i.e. that
neither ends in a stress digit nor in a stress digit followed by a
single trailing newline; and applying `strip_stress` twice equals
applying it once for every phone string whose single removed digit does
not expose a further match — every string not ending in two stress
digits, in a stress digit then a newline then a stress digit, or in two
stress digits then a newline. -/
theorem strip_stress_idempotence :
    (∀ s : Str, endsStressRe s = false → strip_stress s = s) ∧
    (∀ s : Str, doubleStressEnd s = false →
      strip_stress (strip_stress s) = strip_stress s) := by
  constructor
  · exact fun s h => strip_stress_fixed s h
  · intro s h
    simp only [doubleStressEnd, Bool.or_eq_false_iff,
      Bool.and_eq_false_iff] at h
    obtain ⟨⟨hF1, hF2⟩, hF3⟩ := h
    by_cases hA : endsStress s = true
    · rw [strip_stress_of_endsStress s hA]
      apply strip_stress_fixed
      simp only [endsStressRe, Bool.or_eq_false_iff]
      refine ⟨?_, ?_⟩
      · rcases hF1 with h | h
        · exact absurd hA (by simp [h])
        · exact h
      · rcases hF2 with (h | h) | h
        · exact absurd hA (by simp [h])
        · simp [h]
        · simp [h]
    · have hA' : endsStress s = false := by simpa using hA
      by_cases hB : endsNl s = true ∧ endsStress s.dropLast = true
      · obtain ⟨hB1, hB2⟩ := hB
        rw [strip_stress_of_nl s hA' hB1 hB2]
        apply strip_stress_fixed
        simp only [endsStressRe, Bool.or_eq_false_iff]
        refine ⟨endsStress_concat_nl _, ?_⟩
        have hz : endsStress s.dropLast.dropLast = false := by
          rcases hF3 with (h | h) | h
          · exact absurd hB1 (by simp [h])
          · exact absurd hB2 (by simp [h])
          · exact h
        simp [endsNl_concat_nl, List.dropLast_concat, hz]
      · have hf := strip_stress_fixed s (by
          simp only [endsStressRe, Bool.or_eq_false_iff]
          constructor
          · exact hA'
          · rcases Decidable.not_and_iff_or_not.mp hB with h | h
            · simp [Bool.eq_false_iff.mpr h]
            · simp [Bool.eq_false_iff.mpr h])
        rw [hf]
        exact hf

/-- Claim C4 witness: `"AH"` has no stress match and is returned
unchanged; on `"AH0"` a second application changes nothing. -/
theorem strip_stress_idempotence_witness :
    strip_stress (chars "AH") = chars "AH" ∧
    strip_stress (strip_stress (chars "AH0")) = strip_stress (chars "AH0") :=
  ⟨strip_stress_idempotence.1 (chars "AH") (by decide),
    strip_stress_idempotence.2 (chars "AH0") (by decide)⟩

/-- Claim C5: the phoneme sequence `HH AH0 L OW1` of the word "hello"
maps to the engineered symbol string `○~ ▼| ⊣> ▶—` with no unmapped
phones. -/
theorem hello_engineered_symbols :
    arpabet_to_engineered_symbols
      [chars "HH", chars "AH0", chars "L", chars "OW1"] =
      (chars "○~ ▼| ⊣> ▶—", []) := by decide

/-- Claim C2, counterexample: the synthesizer-dialect mapper does not
emit a placeholder for an unmapped phone — on the single-phone sequence
`XX` it produces zero output units (the string `[[]]`), not one, so
output position alignment with the input is not preserved by
`arpabet_to_espeak_phonemes`. -/
theorem espeak_mapper_drops_unmapped :
    arpabet_to_espeak_phonemes [chars "XX"] = (chars "[[]]", [chars "XX"]) ∧
    (arpabet_to_espeak_parts [chars "XX"]).1.length ≠
      ([chars "XX"] : List Str).length := by decide

/-- Claim C2 (amended): the engineered-notation mapper is total and
alignment-preserving — its output has exactly one unit per input phone,
each phone mapping through `engineered_unit` (whose unmapped case is the
visible placeholder embedding the stripped phone); the synthesizer-dialect
mapper instead omits unmapped phones from its output, emitting one unit
per mapped phone, so its output length plus its unmapped-list length
equals the input length. -/
theorem mapper_totality :
    ∀ phones : List Str,
      (arpabet_to_engineered_out phones).1.length = phones.length ∧
      (arpabet_to_engineered_out phones).1 = phones.map engineered_unit ∧
      (∀ ph : Str, lookupStr ENGINEERED (strip_stress ph) = none →
        lookupStr VOWELS (strip_stress ph) = none →
        engineered_unit ph = placeholderPh (strip_stress ph)) ∧
      (arpabet_to_espeak_parts phones).1.length +
        (arpabet_to_espeak_parts phones).2.length = phones.length := by
  intro phones
  refine ⟨?_, eng_out_eq_map phones, ?_, espeak_scan_length phones⟩
  · rw [eng_out_eq_map phones, List.length_map]
  · intro ph h1 h2
    simp [engineered_unit, h1, h2]

/-- Claim C2 witness: on the sequence `XX1` the engineered mapper emits
one unit, and that unit is the placeholder for the stripped phone. -/
theorem mapper_totality_witness :
    (arpabet_to_engineered_out [chars "XX1"]).1.length =
      ([chars "XX1"] : List Str).length ∧
    engineered_unit (chars "XX1") = placeholderPh (strip_stress (chars "XX1")) :=
  ⟨(mapper_totality [chars "XX1"]).1,
    (mapper_totality []).2.2.1 (chars "XX1") (by decide) (by decide)⟩

/-- Claim C3, counterexample: on the input sequence `XX1` the unmapped
list contains `XX` (the stress-stripped base), which is not one of the
phone strings appearing in the input. -/
theorem unmapped_not_literal_subset :
    ¬ (∀ m ∈ (arpabet_to_engineered_symbols [chars "XX1"]).2,
        m ∈ ([chars "XX1"] : List Str)) := by decide

/-- Claim C3 (amended): every element of the unmapped list returned by
`arpabet_to_engineered_symbols` is the stress-stripped form of some
phone of the input sequence. -/
theorem unmapped_subset_stripped (phones : List Str) (m : Str)
    (hm : m ∈ (arpabet_to_engineered_symbols phones).2) :
    ∃ ph ∈ phones, m = strip_stress ph :=
  eng_missing_mem phones m hm

/-- Claim C3 witness: `XX` is in the unmapped list for input `[XX1]` and
is indeed the stripped form of a phone of that input. -/
theorem unmapped_subset_stripped_witness :
    ∃ ph ∈ ([chars "XX1"] : List Str), chars "XX" = strip_stress ph :=
  unmapped_subset_stripped [chars "XX1"] (chars "XX") (by decide)

lemma ws_not_alpha (c : Char) (h : isPyWhitespace c = true) :
    c.isAlpha = false := by
  have hm : c ∈ pyWhitespaceChars := of_decide_eq_true h
  unfold pyWhitespaceChars at hm
  fin_cases hm <;> decide

lemma pyIsSpace_not_word (t : Str) (h : pyIsSpace t = true) :
    word_fullmatch t = false := by
  cases t with
  | nil => simp [pyIsSpace] at h
  | cons c cs =>
    have hc : isPyWhitespace c = true := by
      simp [pyIsSpace] at h
      exact h.1
    have ha : c.isAlpha = false := ws_not_alpha c hc
    have htw : List.takeWhile Char.isAlpha (c :: cs) = [] := by
      rw [List.takeWhile_cons_of_neg]
      simp [ha]
    simp [word_fullmatch, htw]

/-- Claim C1, failing evaluation: on the input consisting of a single
backslash, `tokenize_with_punctuation` emits no token at all (the raw
pattern's `\\s` alternative needs a following `s` and the final
character class excludes the backslash), so concatenating the tokens
yields the empty string, not the input: the round-trip property fails
and the backslash character belongs to no token. -/
theorem tokenize_drops_lone_backslash :
    tokenize_with_punctuation (chars "\\") = [] ∧
    (tokenize_with_punctuation (chars "\\")).flatten ≠ chars "\\" := by
  have h : tokenize_with_punctuation (chars "\\") = [] := by
    simp +decide [tokenize_with_punctuation.eq_def, chars]
  refine ⟨h, ?_⟩
  rw [h]
  decide

/-- Claim C10, failing evaluation: on the two-character input `\s` the
punctuation-aware tokenizer emits the single token `\s` (the `\\s+`
alternative), which does not fully match the word pattern, so its
word-matching subsequence is empty — while `tokenize_words` extracts the
word `s` from the same input. -/
theorem word_token_streams_disagree :
    tokenize_words (chars "\\s") = [chars "s"] ∧
    tokenize_with_punctuation (chars "\\s") = [chars "\\s"] ∧
    (tokenize_with_punctuation (chars "\\s")).filter word_fullmatch ≠
      tokenize_words (chars "\\s") := by
  have h1 : tokenize_words (chars "\\s") = [chars "s"] := by
    simp +decide [tokenize_words.eq_def, word_split, chars]
  have h2 : tokenize_with_punctuation (chars "\\s") = [chars "\\s"] := by
    simp +decide [tokenize_with_punctuation.eq_def, chars]
  refine ⟨h1, h2, ?_⟩
  rw [h1, h2]
  decide

/-- Claim C6: in sentence reconstruction, the output is the stripped
concatenation of the per-token replacements; a whitespace token passes
through unchanged; a non-word non-whitespace token passes through when
punctuation is preserved and becomes a single space otherwise. -/
theorem sentence_reconstruction_policy
    (wmap : Str → Option Str) (preserve : Bool) (tokens : List Str) :
    render_sentence wmap preserve tokens =
      pyStrip (List.flatten (tokens.map (render_token wmap preserve))) ∧
    (∀ t : Str, pyIsSpace t = true → render_token wmap preserve t = t) ∧
    (∀ t : Str, word_fullmatch t = false → pyIsSpace t = false →
      render_token wmap preserve t = if preserve then t else chars " ") := by
  refine ⟨rfl, ?_, ?_⟩
  · intro t h
    simp [render_token, pyIsSpace_not_word t h, h]
  · intro t h1 h2
    simp [render_token, h1, h2]

/-- Claim C6 witness: a space token passes through; with punctuation not
preserved a comma token becomes a single space. -/
theorem sentence_reconstruction_policy_witness :
    render_token (fun _ => none) true (chars " ") = chars " " ∧
    render_token (fun _ => none) false (chars ",") =
      (if false then chars "," else chars " ") :=
  ⟨(sentence_reconstruction_policy (fun _ => none) true []).2.1
      (chars " ") (by decide),
    (sentence_reconstruction_policy (fun _ => none) false []).2.2
      (chars ",") (by decide) (by decide)⟩

/-- Claim C7: a token fully matching the word pattern is replaced by
`wmap.get(token, placeholder(token))` — its transliteration when the
exact token text is a key, else the placeholder embedding the original
word text; never dropped, never left raw. -/
theorem word_token_substitution
    (wmap : Str → Option Str) (preserve : Bool) (t : Str)
    (h : word_fullmatch t = true) :
    render_token wmap preserve t = (wmap t).getD (placeholderPh t) ∧
    (∀ v : Str, wmap t = some v → render_token wmap preserve t = v) ∧
    (wmap t = none → render_token wmap preserve t = placeholderPh t) := by
  refine ⟨by simp [render_token, h], ?_, ?_⟩
  · intro v hv
    simp [render_token, h, hv]
  · intro hv
    simp [render_token, h, hv]

/-- Claim C7 witness: a word token with no known transliteration is
replaced by the placeholder embedding it. -/
theorem word_token_substitution_witness :
    render_token (fun _ => none) true (chars "hi") =
      placeholderPh (chars "hi") :=
  (word_token_substitution (fun _ => none) true (chars "hi")
    (by decide)).2.2 rfl

lemma sentence_scan_entries (pdict : Str → List Str) (words : List Str) :
    (sentence_scan pdict words).1 = words.map (process_word pdict) := by
  induction words with
  | nil => rfl
  | cons w ws ih =>
    rcases h : word_to_arpabet pdict w with _ | phones <;>
      simp [sentence_scan, process_word, h, ih]

lemma sentence_scan_missing (pdict : Str → List Str) (words : List Str) :
    (sentence_scan pdict words).2.1 =
      words.filter (fun v => (word_to_arpabet pdict v).isNone) := by
  induction words with
  | nil => rfl
  | cons w ws ih =>
    rcases h : word_to_arpabet pdict w with _ | phones <;>
      simp [sentence_scan, h, ih, List.filter_cons]

/-- The part of the sentence-mode word loop that does hold: a word whose
pronunciation lookup fails is recorded in the reported missing-word
list, every word of the sentence still yields its entry, and every word
whose lookup succeeds has its phones, engineered symbols and unmapped
list recorded. -/
lemma sentence_scan_robust
    (pdict : Str → List Str) (words : List Str) (w : Str)
    (hw : w ∈ words) (hm : word_to_arpabet pdict w = none) :
    w ∈ (sentence_scan pdict words).2.1 ∧
    (sentence_scan pdict words).1 = words.map (process_word pdict) ∧
    (∀ v ∈ words, ∀ phones : List Str,
      word_to_arpabet pdict v = some phones →
      (v, some phones, some (arpabet_to_engineered_symbols phones).1,
        (arpabet_to_engineered_symbols phones).2) ∈
        (sentence_scan pdict words).1) := by
  refine ⟨?_, sentence_scan_entries pdict words, ?_⟩
  · rw [sentence_scan_missing]
    exact List.mem_filter.mpr ⟨hw, by simp [hm]⟩
  · intro v hv phones hp
    rw [sentence_scan_entries]
    have he : process_word pdict v =
        (v, some phones, some (arpabet_to_engineered_symbols phones).1,
          (arpabet_to_engineered_symbols phones).2) := by
      simp [process_word, hp]
    rw [← he]
    exact List.mem_map_of_mem _ hv

/-- Claim C8, failing evaluation: on the sentence `qqqq \sand` with a
pronunciation dictionary that lacks `qqqq` but contains `sand`
(`S AE1 N D`), the missing word `qqqq` is recorded and reported and
`sand` is looked up and mapped to `⊣~ ▼ ⊣° ⊣·` — but the
punctuation-aware tokenizer splits the raw text into
`qqqq · `\s` · and` (the raw-string `\\s+` alternative swallows the
`s`), so the reconstructed sentence replaces `qqqq` and `and` by
placeholders, passes `\s` through, and the found word's transliteration
appears nowhere in the output: the claim's "included in the
reconstructed output" conclusion fails. -/
theorem found_word_absent_from_reconstruction :
    tokenize_words (chars "qqqq \\sand") = [chars "qqqq", chars "sand"] ∧
    sentence_scan
        (fun w => if w = chars "sand" then [chars "S AE1 N D"] else [])
        [chars "qqqq", chars "sand"] =
      ([(chars "qqqq", none, none, []),
        (chars "sand", some [chars "S", chars "AE1", chars "N", chars "D"],
          some (chars "⊣~ ▼ ⊣° ⊣·"), [])], [chars "qqqq"], []) ∧
    tokenize_with_punctuation (chars "qqqq \\sand") =
      [chars "qqqq", chars " ", chars "\\s", chars "and"] ∧
    render_sentence
        (fun t => if t = chars "sand" then some (chars "⊣~ ▼ ⊣° ⊣·")
          else none) true
        [chars "qqqq", chars " ", chars "\\s", chars "and"] =
      chars "<?>(qqqq) \\s<?>(and)" ∧
    ¬ (chars "⊣~ ▼ ⊣° ⊣·" <:+:
        render_sentence
          (fun t => if t = chars "sand" then some (chars "⊣~ ▼ ⊣° ⊣·")
            else none) true
          [chars "qqqq", chars " ", chars "\\s", chars "and"]) := by
  have hsplit : pySplitWS ['S', ' ', 'A', 'E', '1', ' ', 'N', ' ', 'D'] =
      [['S'], ['A', 'E', '1'], ['N'], ['D']] := by
    simp +decide [pySplitWS.eq_def]
  have hsand : word_to_arpabet
      (fun w => if w = chars "sand" then [chars "S AE1 N D"] else [])
      (chars "sand") =
      some [chars "S", chars "AE1", chars "N", chars "D"] := by
    simp +decide [word_to_arpabet, chars, pyStrip, pyLower, hsplit]
  have hqqqq : word_to_arpabet
      (fun w => if w = chars "sand" then [chars "S AE1 N D"] else [])
      (chars "qqqq") = none := by
    simp +decide [word_to_arpabet, chars, pyStrip, pyLower]
  refine ⟨?_, ?_, ?_, ?_, ?_⟩
  · simp +decide [tokenize_words.eq_def, word_split, chars]
  · simp +decide [sentence_scan, hsand, hqqqq]
  · simp +decide [tokenize_with_punctuation.eq_def, word_split, chars]
  · decide
  · decide

/-- The tokens one group contributes to the eSpeak `parts` list once the
list is already nonempty: an optional pause comma, then the group's
mapped tokens. -/
def group_contrib (pause : Bool) (g : List Str) : List Str :=
  (if pause then [chars ","] else []) ++ (espeak_scan g).1

lemma flatten_intersperse {α : Type} (sep : List α) (x : List α)
    (xs : List (List α)) :
    (List.intersperse sep (x :: xs)).flatten =
      x ++ (xs.map (fun b => sep ++ b)).flatten := by
  induction xs generalizing x with
  | nil => simp
  | cons y ys ih => simp [List.intersperse_cons₂, ih, List.append_assoc]

lemma audio_loop_acc (pause : Bool) (gs : List (List Str)) :
    ∀ acc accMiss : List Str, acc ≠ [] →
      (∀ g ∈ gs, (espeak_scan g).1 ≠ []) →
      (audio_loop pause acc accMiss gs).1 =
        acc ++ (gs.map (group_contrib pause)).flatten := by
  induction gs with
  | nil =>
    intro acc accMiss _ _
    simp [audio_loop]
  | cons g rest ih =>
    intro acc accMiss h1 h2
    have hg : (espeak_scan g).1 ≠ [] := h2 g (List.mem_cons_self g rest)
    have hei : acc.isEmpty = false := by
      simpa [List.isEmpty_iff] using h1
    have hgi : (espeak_scan g).1.isEmpty = false := by
      simpa [List.isEmpty_iff] using hg
    have step : (audio_loop pause acc accMiss (g :: rest)).1 =
        (audio_loop pause
          ((if pause then acc ++ [chars ","] else acc) ++ (espeak_scan g).1)
          (accMiss ++ (espeak_scan g).2) rest).1 := by
      cases pause <;> simp [audio_loop, hei, hgi]
    rw [step, ih _ _ (by cases pause <;> simp [hg])
        (fun g hgmem => h2 g (List.mem_cons_of_mem _ hgmem))]
    cases pause <;> simp [group_contrib, List.append_assoc]

/-- Claim C9, counterexample: a group with no mapped phone breaks the
comma-between-consecutive-groups convention.  With pauses enabled, for
the groups `[[XX],[P]]` the code emits `[[p]]` — no comma between the
two consecutive groups, and not the comma-intercalated string of the
groups' token lists — and for `[[P],[XX]]` it emits `[[p ,]]`, a comma
after which no group's tokens follow. -/
theorem espeak_pause_comma_anomaly :
    make_phon_str true [[chars "XX"], [chars "P"]] = some (chars "[[p]]") ∧
    make_phon_str true [[chars "XX"], [chars "P"]] ≠
      some (chars "[[" ++ joinSpaces
        (List.intercalate [chars ","]
          ([[chars "XX"], [chars "P"]].map fun g =>
            (arpabet_to_espeak_parts g).1)) ++ chars "]]") ∧
    make_phon_str true [[chars "P"], [chars "XX"]] =
      some (chars "[[p ,]]") := by decide

/-- Claim C9 (amended): the eSpeak phoneme string of the mapper is
always wrapped in the fixed `[[` / `]]` delimiter pair with
space-separated tokens; whenever the audio builder accumulates any
tokens at all it wraps them in the same delimiter pair (and builds no
string otherwise); and when every group contributes at least one mapped
token, the built string is the groups' token lists joined — with a
comma token between consecutive groups when the inter-word pause option
is set (a group with no mapped tokens instead yields a missing or
dangling comma, as the counterexample shows). -/
theorem espeak_string_format :
    (∀ phones : List Str,
      (arpabet_to_espeak_phonemes phones).1 =
        chars "[[" ++ joinSpaces (arpabet_to_espeak_parts phones).1 ++
          chars "]]") ∧
    (∀ (pause : Bool) (groups : List (List Str)),
      make_phon_parts pause groups ≠ [] →
      make_phon_str pause groups =
        some (chars "[[" ++ joinSpaces (make_phon_parts pause groups) ++
          chars "]]")) ∧
    (∀ (pause : Bool) (groups : List (List Str)), groups ≠ [] →
      (∀ g ∈ groups, (arpabet_to_espeak_parts g).1 ≠ []) →
      make_phon_str pause groups =
        some (chars "[[" ++ joinSpaces
          (if pause then
            List.intercalate [chars ","]
              (groups.map fun g => (arpabet_to_espeak_parts g).1)
          else (groups.map fun g => (arpabet_to_espeak_parts g).1).flatten)
          ++ chars "]]")) := by
  refine ⟨?_, ?_, ?_⟩
  · intro phones
    rfl
  · intro pause groups hp
    have hpe : (make_phon_parts pause groups).isEmpty = false := by
      simpa [List.isEmpty_iff] using hp
    simp [make_phon_str, hpe]
  · intro pause groups hne hall
    cases groups with
    | nil => exact absurd rfl hne
    | cons g0 rest =>
      have hg0 : (espeak_scan g0).1 ≠ [] := hall g0 (List.mem_cons_self g0 rest)
      have hg0i : (espeak_scan g0).1.isEmpty = false := by
        simpa [List.isEmpty_iff] using hg0
      have step : make_phon_parts pause (g0 :: rest) =
          (audio_loop pause (espeak_scan g0).1 (espeak_scan g0).2 rest).1 := by
        cases pause <;> simp [make_phon_parts, audio_loop, hg0i]
      have hparts : make_phon_parts pause (g0 :: rest) =
          (espeak_scan g0).1 ++ (rest.map (group_contrib pause)).flatten := by
        rw [step]
        exact audio_loop_acc pause rest _ _ hg0
          (fun g hgmem => hall g (List.mem_cons_of_mem _ hgmem))
      have hpne : make_phon_parts pause (g0 :: rest) ≠ [] := by
        rw [hparts]
        intro hcl
        exact hg0 (List.append_eq_nil.mp hcl).1
      have hpnei : (make_phon_parts pause (g0 :: rest)).isEmpty = false := by
        simpa [List.isEmpty_iff] using hpne
      rw [make_phon_str]
      simp only [hpnei, Bool.false_eq_true, if_false]
      rw [hparts]
      cases pause with
      | false =>
        have hgc : group_contrib false = fun g => (espeak_scan g).1 :=
          funext fun g => by simp [group_contrib]
        rw [hgc]
        simp [arpabet_to_espeak_parts]
      | true =>
        have hic : List.intercalate [chars ","]
            ((g0 :: rest).map fun g => (arpabet_to_espeak_parts g).1) =
            (espeak_scan g0).1 ++
              ((rest.map fun g => (arpabet_to_espeak_parts g).1).map
                (fun b => [chars ","] ++ b)).flatten := by
          rw [List.map_cons, List.intercalate]
          exact flatten_intersperse _ _ _
        rw [if_pos rfl, hic]
        have hgc : group_contrib true =
            fun g => chars "," :: (espeak_scan g).1 :=
          funext fun g => by simp [group_contrib]
        rw [hgc]
        simp [arpabet_to_espeak_parts, List.map_map, Function.comp_def]

/-- Claim C9 witness: two one-phone groups with pauses enabled produce
the delimited, comma-separated phoneme string. -/
theorem espeak_string_format_witness :
    make_phon_str true [[chars "P"], [chars "T"]] =
      some (chars "[[" ++ joinSpaces
        (if true then
          List.intercalate [chars ","]
            ([[chars "P"], [chars "T"]].map fun g =>
              (arpabet_to_espeak_parts g).1)
        else ([[chars "P"], [chars "T"]].map fun g =>
          (arpabet_to_espeak_parts g).1).flatten)
        ++ chars "]]") :=
  espeak_string_format.2.2 true [[chars "P"], [chars "T"]]
    (by decide) (by decide)

end AltEnglish
